import Mathlib

/-!
Verification development for the `nestor` keyword-extraction pipeline
(`nestor/keyword.py`).  The Python data model is shallowly embedded:

* text is a `String` / `List Char`;
* pandas cells are `Cell` (a value or the missing marker `NaN`);
* a vocabulary table (`generate_vocabulary_df` output) is an association
  list `Table` keyed by token, ordered as the dataframe rows are;
* the compiled regex of `regex_match_vocab` is embedded as its ordered
  list of alternatives together with an explicit word-boundary matcher
  (Python `re` alternation tries the alternatives left to right and
  prefers the first one that matches, which for the sorted vocabulary
  means the longest).

Fallible or stateful Python code is embedded by explicit state passing;
floating-point NaN (e.g. numpy `0.0/0.0`) is embedded as `Cell.nan`.
All definitions are executable so concrete scenarios evaluate by `decide`.
-/

namespace Nestor

/-! ## Characters and word boundaries (Python `re` semantics, ASCII) -/

/-- Python regex word character `\w` (ASCII fragment): alphanumeric or underscore. -/
def isWordChar (c : Char) : Bool :=
  c.isAlphanum || c == '_'

/-- Word-character test lifted to the "character before/after this position"
    view, where `none` denotes start/end of the text. -/
def optWord : Option Char → Bool
  | none => false
  | some c => isWordChar c

/-- Python `\b`: a word boundary lies between two positions iff exactly one
    side is a word character (start/end of text count as non-word). -/
def isBoundary (prev next : Option Char) : Bool :=
  optWord prev != optWord next

/-- Python `string.punctuation` membership, by character code:
    `!"#$%&'()*+,-./:;<=>?@[\]^_`{|}~` are codes 33-47, 58-64, 91-96, 123-126. -/
def isPunct (c : Char) : Bool :=
  (33 ≤ c.toNat && c.toNat ≤ 47) || (58 ≤ c.toNat && c.toNat ≤ 64) ||
  (91 ≤ c.toNat && c.toNat ≤ 96) || (123 ≤ c.toNat && c.toNat ≤ 126)

/-- Python `str.lower` (ASCII fragment), as used by `NLPSelect` and `iob_extractor`. -/
def lowerData (cs : List Char) : List Char :=
  cs.map Char.toLower

/-! ## The compiled vocabulary matcher (`regex_match_vocab`)

`regex_match_vocab` builds `\b(tok1|tok2|...)\b` from the vocabulary sorted by
descending character length (`sorted(vocab_iter, key=len, reverse=True)`,
a stable sort).  We embed the compiled pattern as that sorted list of
alternatives; `matchKeyAt` is one alternative tried at one position with both
`\b` anchors, and `findAlt` is the left-to-right preference order of Python
alternation. -/

/-- If `k` is a literal prefix of `cs`, return the remaining text. -/
def dropPrefix? : List Char → List Char → Option (List Char)
  | [], cs => some cs
  | _ :: _, [] => none
  | k :: ks, c :: cs => if k = c then dropPrefix? ks cs else none

/-- The character just before the end of a match that consumed `k`
    starting after original predecessor `prev`. -/
def lastOr (k : List Char) (prev : Option Char) : Option Char :=
  match k.getLast? with
  | some c => some c
  | none => prev

/-- Try one alternative `k` at the current position: literal prefix match
    plus the leading and trailing `\b` of `regex_match_vocab`'s pattern.
    `prev` is the original character before this position. -/
def matchKeyAt (k : List Char) (prev : Option Char) (cs : List Char) : Option (List Char) :=
  match dropPrefix? k cs with
  | none => none
  | some rest =>
      if isBoundary prev cs.head? && isBoundary (lastOr k prev) rest.head? then
        some rest
      else
        none

/-- Python alternation: try the alternatives left to right, commit to the
    first that matches (no longest-match backtracking across alternatives). -/
def findAlt (keys : List (List Char)) (prev : Option Char) (cs : List Char) :
    Option (List Char × List Char) :=
  match keys with
  | [] => none
  | k :: ks =>
      match matchKeyAt k prev cs with
      | some rest => some (k, rest)
      | none => findAlt ks prev cs

/-- Stable insertion of `x` into a list sorted by descending length:
    `x` walks past strictly longer elements only, so among equal lengths the
    original order is kept — exactly Python's stable
    `sorted(key=len, reverse=True)`. -/
def insLen (x : List Char) : List (List Char) → List (List Char)
  | [] => [x]
  | y :: ys => if x.length < y.length then y :: insLen x ys else x :: y :: ys

/-- The sort `sorted(vocab_iter, key=len, reverse=True)` of `regex_match_vocab`. -/
def sortLenDesc : List (List Char) → List (List Char)
  | [] => []
  | x :: xs => insLen x (sortLenDesc xs)

/-- The compiled alternation of `regex_match_vocab(vocab)` (tokenize=False
    branch): the vocabulary, sorted by descending length. -/
def regexMatchVocab (vocab : List String) : List (List Char) :=
  sortLenDesc (vocab.map String.data)

/-- Scan of `pattern.sub` over the text: at each position try the compiled
    alternation; on a match emit `f key` and resume after the consumed text
    (a zero-width match emits and advances one character, as Python does);
    otherwise copy the character.  `fuel` bounds recursion; `fuel = cs.length`
    is always enough since every step consumes a character. -/
def substAllF (keys : List (List Char)) (f : List Char → List Char) :
    Nat → Option Char → List Char → List Char
  | 0, _, _ => []
  | _ + 1, _, [] => []
  | fuel + 1, prev, c :: cs =>
      match findAlt keys prev (c :: cs) with
      | some (k, rest) =>
          if k.isEmpty then f k ++ c :: substAllF keys f fuel (some c) cs
          else f k ++ substAllF keys f fuel (lastOr k prev) rest
      | none => c :: substAllF keys f fuel (some c) cs

/-- Scan of `pattern.findall` over the text, with an optional generic tokenizer
    alternative tried after the vocabulary branch (the `tokenize=True`
    pattern `(vocab|token_pattern)` of `regex_match_vocab`); unmatched
    characters are skipped. -/
def findAllF (keys : List (List Char))
    (tokPat : Option Char → List Char → Option (List Char × List Char)) :
    Nat → Option Char → List Char → List (List Char)
  | 0, _, _ => []
  | _ + 1, _, [] => []
  | fuel + 1, prev, c :: cs =>
      match findAlt keys prev (c :: cs) with
      | some (k, rest) =>
          if k.isEmpty then k :: findAllF keys tokPat fuel (some c) cs
          else k :: findAllF keys tokPat fuel (lastOr k prev) rest
      | none =>
          match tokPat prev (c :: cs) with
          | some (m, rest) =>
              if m.isEmpty then m :: findAllF keys tokPat fuel (some c) cs
              else m :: findAllF keys tokPat fuel (lastOr m prev) rest
          | none => findAllF keys tokPat fuel (some c) cs

/-- The trivial tokenizer: `tokenize=False` (no generic fallback branch). -/
def noTok : Option Char → List Char → Option (List Char × List Char) :=
  fun _ _ => none

/-- Association-list lookup (first binding wins, like a pandas unique index). -/
def lookupD (d : List (String × String)) (k : String) : String :=
  match d with
  | [] => ""
  | (k', v) :: rest => if k' = k then v else lookupD rest k

/-- Embeds `regex_thesaurus_normalizer(thesaurus, text)`: substitute every
    whole-word occurrence of a thesaurus key (longest-first compiled
    alternation) by its value. -/
def regexThesaurusNormalizer (thes : List (String × String)) (text : String) : String :=
  let keys := regexMatchVocab (thes.map Prod.fst)
  String.mk (substAllF keys (fun k => (lookupD thes (String.mk k)).data)
    text.data.length none text.data)

/-- All matches of the compiled vocabulary pattern in `text`
    (`tokenize=False`), in scan order. -/
def findAllVocab (vocab : List String) (text : String) : List String :=
  (findAllF (regexMatchVocab vocab) noTok text.data.length none text.data).map String.mk

/-! ## `NLPSelect.transform` cleaning pipeline (`_clean_text`)

`_clean_text` chains `s.str.lower().str.replace("\n"," ")
.str.replace("[{punctuation}]"," ")` and then, when `special_replace` is
supplied, substitutes with `re.compile("|".join(map(re.escape, special_replace)))`
— note: the keys in *dict insertion order*, NOT length-sorted and with no
word boundaries (unlike `regex_match_vocab`). -/

/-- The step `.str.replace("\n", " ")`. -/
def mapNewline (cs : List Char) : List Char :=
  cs.map (fun c => if c = '\n' then ' ' else c)

/-- The step `.str.replace("[{string.punctuation}]", " ")`. -/
def mapPunctSpace (cs : List Char) : List Char :=
  cs.map (fun c => if isPunct c then ' ' else c)

/-- The alternation `"|".join(map(re.escape, special_replace))`: the first
    key, in dict insertion order, that literally matches at this position
    (no sorting, no boundaries).  Returns the key, its replacement and the
    remaining text. -/
def findKey (repl : List (String × String)) (cs : List Char) :
    Option (String × String × List Char) :=
  match repl with
  | [] => none
  | (k, v) :: rest =>
      match dropPrefix? k.data cs with
      | some r => some (k, v, r)
      | none => findKey rest cs

/-- The `raw_text.str.replace(rx, lambda m: special_replace[m.group(0)])`
    scan: substitute the first matching key at each position, left to right. -/
def substSpecialF (repl : List (String × String)) :
    Nat → List Char → List Char
  | 0, _ => []
  | _ + 1, [] => []
  | fuel + 1, c :: cs =>
      match findKey repl (c :: cs) with
      | some (k, v, rest) =>
          if k.data.isEmpty then v.data ++ c :: substSpecialF repl fuel cs
          else v.data ++ substSpecialF repl fuel rest
      | none => c :: substSpecialF repl fuel cs

/-- Embeds `NLPSelect._clean_text`: lowercase, newlines to spaces, punctuation to
    spaces, then (if supplied) the special-replacement substitution. -/
def nlpCleanText (specialReplace : Option (List (String × String))) (s : String) : String :=
  let raw := mapPunctSpace (mapNewline (lowerData s.data))
  match specialReplace with
  | none => String.mk raw
  | some repl => String.mk (substSpecialF repl raw.length raw)

/-! ## Longest-match facts about the compiled matcher -/

theorem mem_insLen {x a : List Char} : ∀ {l : List (List Char)},
    a ∈ insLen x l ↔ a = x ∨ a ∈ l := by
  intro l
  induction l with
  | nil => simp [insLen]
  | cons y ys ih =>
      by_cases h : x.length < y.length
      · simp only [insLen, if_pos h, List.mem_cons, ih]
        tauto
      · simp only [insLen, if_neg h, List.mem_cons]

theorem pairwise_insLen {x : List Char} : ∀ {l : List (List Char)},
    l.Pairwise (fun a b => b.length ≤ a.length) →
    (insLen x l).Pairwise (fun a b => b.length ≤ a.length) := by
  intro l
  induction l with
  | nil => intro _; simp [insLen]
  | cons y ys ih =>
      intro h
      rcases List.pairwise_cons.mp h with ⟨hy, hys⟩
      by_cases hlt : x.length < y.length
      · simp only [insLen, if_pos hlt]
        refine List.pairwise_cons.mpr ⟨?_, ih hys⟩
        intro b hb
        rcases mem_insLen.mp hb with rfl | hb
        · exact Nat.le_of_lt hlt
        · exact hy b hb
      · simp only [insLen, if_neg hlt]
        refine List.pairwise_cons.mpr ⟨?_, h⟩
        intro b hb
        rcases List.mem_cons.mp hb with rfl | hb
        · exact Nat.le_of_not_lt hlt
        · exact Nat.le_trans (hy b hb) (Nat.le_of_not_lt hlt)

theorem pairwise_sortLenDesc : ∀ l : List (List Char),
    (sortLenDesc l).Pairwise (fun a b => b.length ≤ a.length) := by
  intro l
  induction l with
  | nil => simp [sortLenDesc]
  | cons x xs ih => exact pairwise_insLen ih

theorem mem_sortLenDesc {a : List Char} : ∀ {l : List (List Char)},
    a ∈ sortLenDesc l ↔ a ∈ l := by
  intro l
  induction l with
  | nil => simp [sortLenDesc]
  | cons x xs ih =>
      simp only [sortLenDesc, mem_insLen, List.mem_cons, ih]

/-- Lemma: `findAlt` commits to the first alternative that matches: every earlier
    alternative fails at this position. -/
theorem findAlt_first {prev : Option Char} {cs : List Char} {k rest : List Char} :
    ∀ {keys : List (List Char)}, findAlt keys prev cs = some (k, rest) →
    ∃ l1 l2, keys = l1 ++ k :: l2 ∧ (∀ x ∈ l1, matchKeyAt x prev cs = none) ∧
      matchKeyAt k prev cs = some rest := by
  intro keys
  induction keys with
  | nil => intro h; simp [findAlt] at h
  | cons k0 ks ih =>
      intro h
      rw [findAlt] at h
      cases hm : matchKeyAt k0 prev cs with
      | some r =>
          rw [hm] at h
          simp only [Option.some.injEq, Prod.mk.injEq] at h
          obtain ⟨rfl, rfl⟩ := h
          exact ⟨[], ks, rfl, by intro x hx; simp at hx, hm⟩
      | none =>
          rw [hm] at h
          obtain ⟨l1, l2, rfl, hfail, hk⟩ := ih h
          refine ⟨k0 :: l1, l2, rfl, ?_, hk⟩
          intro x hx
          rcases List.mem_cons.mp hx with rfl | hx
          · exact hm
          · exact hfail x hx

/-- Claim C3. The compiled vocabulary matcher of `regex_match_vocab` sorts the
    entries by descending character length, so at any text position the
    alternative it commits to is at least as long as every vocabulary entry
    matching there; in particular for the vocabulary `{"these","there","the"}`
    and input `"there-in"`, both matching and thesaurus substitution select
    `"there"`, never `"the"`. -/
theorem C3_longest_match :
    (∀ (vocab : List String) (prev : Option Char) (cs : List Char) (k rest : List Char),
        findAlt (regexMatchVocab vocab) prev cs = some (k, rest) →
        ∀ w ∈ vocab, (matchKeyAt w.data prev cs).isSome → w.data.length ≤ k.length)
    ∧ findAllVocab ["these", "there", "the"] "there-in" = ["there"]
    ∧ regexThesaurusNormalizer [("these", "A"), ("there", "B"), ("the", "C")] "there-in"
        = "B-in" := by
  refine ⟨?_, by decide, by decide⟩
  intro vocab prev cs k rest hfind w hw hmatch
  obtain ⟨l1, l2, hsplit, hfail, _⟩ := findAlt_first hfind
  have hwmem : w.data ∈ regexMatchVocab vocab := by
    rw [regexMatchVocab, mem_sortLenDesc]
    exact List.mem_map_of_mem String.data hw
  rw [hsplit] at hwmem
  rcases List.mem_append.mp hwmem with h1 | h2
  · exact absurd (hfail w.data h1) (by simp_all)
  · rcases List.mem_cons.mp h2 with heq | h2
    · exact Nat.le_of_eq (congrArg List.length heq)
    · have hpw := pairwise_sortLenDesc (vocab.map String.data)
      rw [regexMatchVocab] at hsplit
      rw [hsplit] at hpw
      have := (List.pairwise_append.mp hpw).2.1
      exact (List.pairwise_cons.mp this).1 w.data h2

/-- Witness for C3: with vocabulary `{"a b","a"}` both entries match
    `"a b"` at position 0 as whole words, and the committed match `"a b"`
    is the longer one. -/
theorem C3_longest_match_witness : "a".data.length ≤ "a b".data.length := by
  have h := C3_longest_match.1 ["a b", "a"] none "a b".data "a b".data []
    (by decide) "a" (by decide) (by decide)
  exact h

/-- Claim C5, counterexample. With `special_replace` holding the shorter key
    first in insertion order, the cleaning pipeline applies the *shorter*
    key `"ab"` at position 0 of `"abc"` (alternation is built in dict order,
    unsorted), producing `"1c"`, not the longer key's replacement `"2"`. -/
theorem C5_counterexample :
    nlpCleanText (some [("ab", "1"), ("abc", "2")]) "abc" = "1c" ∧
    nlpCleanText (some [("ab", "1"), ("abc", "2")]) "abc" ≠ "2" := by
  decide

/-- Claim C5, amended. The cleaning pipeline applies, in this fixed order:
    lowercasing, newline-to-space, punctuation-to-space, and then — when
    supplied — the `special_replace` substitution; but that substitution
    applies, at each text position, the *first* key of the dictionary in
    insertion order that literally matches there (keys are not length-sorted,
    so a longer matching key is used only when no earlier key matches). -/
theorem C5_pipeline_order :
    (∀ (s : String) (repl : List (String × String)),
        nlpCleanText (some repl) s
          = String.mk (substSpecialF repl
              (mapPunctSpace (mapNewline (lowerData s.data))).length
              (mapPunctSpace (mapNewline (lowerData s.data)))))
    ∧ (∀ (repl : List (String × String)) (cs : List Char) (k v : String) (r : List Char),
        findKey repl cs = some (k, v, r) →
        ∃ pre suf, repl = pre ++ (k, v) :: suf ∧
          ∀ p ∈ pre, dropPrefix? p.1.data cs = none) := by
  refine ⟨fun s repl => rfl, ?_⟩
  intro repl
  induction repl with
  | nil => intro cs k v r h; simp [findKey] at h
  | cons p ps ih =>
      intro cs k v r h
      obtain ⟨k0, v0⟩ := p
      rw [findKey] at h
      cases hd : dropPrefix? k0.data cs with
      | some r0 =>
          rw [hd] at h
          simp only [Option.some.injEq, Prod.mk.injEq] at h
          obtain ⟨rfl, rfl, rfl⟩ := h
          exact ⟨[], ps, rfl, by intro x hx; simp at hx⟩
      | none =>
          rw [hd] at h
          obtain ⟨pre, suf, rfl, hfail⟩ := ih cs k v r h
          refine ⟨(k0, v0) :: pre, suf, rfl, ?_⟩
          intro x hx
          rcases List.mem_cons.mp hx with rfl | hx
          · exact hd
          · exact hfail x hx

/-- Witness for the amended C5: on `"abc"` with keys inserted as
    `["ab", "abc"]`, the chosen key is `"ab"` — the first in insertion order
    — with no earlier key matching. -/
theorem C5_pipeline_order_witness :
    ∃ pre suf, [("ab", "1"), ("abc", "2")] = pre ++ ("ab", "1") :: suf ∧
      ∀ p ∈ pre, dropPrefix? p.1.data "abc".data = none :=
  C5_pipeline_order.2 [("ab", "1"), ("abc", "2")] "abc".data "ab" "1" ['c'] (by decide)

/-! ## The vocabulary-table data model

A pandas cell is a value or the missing marker NaN (also the result of the
float expression `0.0/0.0`).  A vocabulary dataframe is an ordered
association list token ↦ (NE, alias, notes, score), as produced by
`generate_vocabulary_df`. -/

inductive Cell where
  | nan : Cell
  | str : String → Cell
  | num : ℚ → Cell
deriving DecidableEq, Repr

/-- One row of a vocabulary dataframe (token is the index key). -/
structure VocabRow where
  NE : Cell
  alias_ : Cell
  notes : Cell
  score : Cell
deriving DecidableEq, Repr

/-- A vocabulary dataframe: rows in order, keyed by token. -/
abbrev Table := List (String × VocabRow)

/-- Index lookup on a (unique-indexed) dataframe: first row with the key. -/
def lookupRow : Table → String → Option VocabRow
  | [], _ => none
  | (t0, r) :: rest, t => if t0 = t then some r else lookupRow rest t

/-! ## `TokenExtractor`

The sklearn `TfidfVectorizer` inside `TokenExtractor` is an external
dependency; the extractor *state* is embedded exactly: `_model` is `none`
until fitted and then holds the fitted feature names, `_tf_tot` holds the
summed per-feature scores of the last `fit_transform`/`transform` call.
The claims below depend only on this state and on how `ranks_`, `vocab_`
and `scores_` read it, not on the numeric TF-IDF weighting. -/

structure TokenExtractor where
  model : Option (List String)
  tfTot : Option (List ℚ)
  maxFeatures : Nat
deriving DecidableEq, Repr

/-- Insert index `i` into an index list sorted ascending by value;
    an equal value stops the walk, so the earlier index stays first
    (numpy stable argsort). -/
def insIdx (v : List ℚ) (i : Nat) : List Nat → List Nat
  | [] => [i]
  | j :: js => if v.getD j 0 < v.getD i 0 then j :: insIdx v i js else i :: j :: js

def argsortAux (v : List ℚ) : List Nat → List Nat
  | [] => []
  | i :: is => insIdx v i (argsortAux v is)

/-- Stable `np.argsort` of the summed-score vector. -/
def argsortAsc (v : List ℚ) : List Nat :=
  argsortAux v (List.range v.length)

/-- Embeds `TokenExtractor.ranks_`: `self._tf_tot.argsort()[::-1]`, truncated to
    `max_features` when longer. -/
def ranksOf (tot : List ℚ) (maxF : Nat) : List Nat :=
  let r := (argsortAsc tot).reverse
  if maxF < r.length then r.take maxF else r

/-- Embeds `TokenExtractor.vocab_`: the feature names indexed by `ranks_`. -/
def vocabOf (names : List String) (tot : List ℚ) (maxF : Nat) : List String :=
  (ranksOf tot maxF).map (fun i => names.getD i "")

def listMin : List ℚ → ℚ
  | [] => 0
  | x :: xs => xs.foldl (fun a b => if b < a then b else a) x

def listMax : List ℚ → ℚ
  | [] => 0
  | x :: xs => xs.foldl (fun a b => if a < b then b else a) x

/-- Embeds `TokenExtractor.scores_`: `(scores - scores.min()) / (scores.max() - scores.min())`
    over `self._tf_tot[self.ranks_]`.  When `max == min` every entry is the
    float `0.0/0.0`, i.e. NaN — the code has no degenerate-case guard. -/
def scoresOf (tot : List ℚ) (maxF : Nat) : List Cell :=
  let sel := (ranksOf tot maxF).map (fun i => tot.getD i 0)
  let mn := listMin sel
  let mx := listMax sel
  if mx = mn then sel.map (fun _ => Cell.nan)
  else sel.map (fun s => Cell.num ((s - mn) / (mx - mn)))

/-- The filter `df[~df.tokens.duplicated(keep="first")]`: drop rows whose token already
    occurred. -/
def dedupFirst (seen : List String) : Table → Table
  | [] => []
  | (t, r) :: rest =>
      if seen.contains t then dedupFirst seen rest
      else (t, r) :: dedupFirst (t :: seen) rest

/-- The fresh dataframe of `generate_vocabulary_df`: one row per ranked
    token with empty NE/alias/notes and the normalized score, deduplicated
    keeping the first occurrence, indexed by token. -/
def freshVocabularyDf (names : List String) (tot : List ℚ) (maxF : Nat) : Table :=
  dedupFirst []
    (((vocabOf names tot maxF).zip (scoresOf tot maxF)).map
      (fun p => (p.1, ⟨Cell.str "", Cell.str "", Cell.str "", p.2⟩)))

/-- Embeds `df.update(df_import)` on one cell: a non-NaN imported value overwrites. -/
def updCell (fresh imp : Cell) : Cell :=
  match imp with
  | Cell.nan => fresh
  | c => c

/-- Embeds `df.update(df_import)` on one row (all four shared columns take part,
    including `score`). -/
def updateRow (r : VocabRow) : Option VocabRow → VocabRow
  | none => r
  | some ri => ⟨updCell r.NE ri.NE, updCell r.alias_ ri.alias_,
      updCell r.notes ri.notes, updCell r.score ri.score⟩

/-- Embeds `df.fillna("")` on one cell. -/
def fillCell : Cell → Cell
  | Cell.nan => Cell.str ""
  | c => c

def fillnaRow (r : VocabRow) : VocabRow :=
  ⟨fillCell r.NE, fillCell r.alias_, fillCell r.notes, fillCell r.score⟩

/-- Embeds `generate_vocabulary_df(transformer, init=...)` for a fitted extractor
    with feature names `names` and summed scores `tot`: build the fresh
    ranked dataframe; with an `init` table, blank NE/alias/notes to NaN,
    `df.update(init)`, then `df.fillna("")`. -/
def generate_vocabulary_df (names : List String) (tot : List ℚ) (maxF : Nat)
    (init : Option Table) : Table :=
  let df := freshVocabularyDf names tot maxF
  match init with
  | none => df
  | some imp =>
      let cleared := df.map
        (fun p => (p.1, { p.2 with NE := Cell.nan, alias_ := Cell.nan, notes := Cell.nan }))
      let updated := cleared.map (fun p => (p.1, updateRow p.2 (lookupRow imp p.1)))
      updated.map (fun p => (p.1, fillnaRow p.2))

/-- Modelled from the spec: the persistence layer (CSV read/write) is an
    out-of-scope collaborator whose contract (§6) is that the five columns
    round-trip losslessly with the empty string as the canonical "no value"
    representation, read back as missing.  One save/load cycle therefore
    maps an empty-string cell to NaN and keeps every other cell unchanged. -/
def persistCell : Cell → Cell
  | Cell.str v => if v = "" then Cell.nan else Cell.str v
  | c => c

def persistRow (r : VocabRow) : VocabRow :=
  ⟨persistCell r.NE, persistCell r.alias_, persistCell r.notes, persistCell r.score⟩

def persistTable (tbl : Table) : Table :=
  tbl.map (fun p => (p.1, persistRow p.2))

/-! ## Lookup lemmas -/

theorem lookupRow_map (f : String → VocabRow → VocabRow) :
    ∀ (tbl : Table) (t : String),
    lookupRow (tbl.map (fun p => (p.1, f p.1 p.2))) t = (lookupRow tbl t).map (f t) := by
  intro tbl t
  induction tbl with
  | nil => rfl
  | cons p rest ih =>
      obtain ⟨t0, r0⟩ := p
      by_cases h : t0 = t
      · subst h; simp [lookupRow]
      · simp [lookupRow, h, ih]

theorem lookupRow_mem {tbl : Table} {t : String} {r : VocabRow}
    (h : lookupRow tbl t = some r) : (t, r) ∈ tbl := by
  induction tbl with
  | nil => simp [lookupRow] at h
  | cons p rest ih =>
      obtain ⟨t0, r0⟩ := p
      by_cases he : t0 = t
      · subst he
        have h' : r0 = r := by simpa [lookupRow] using h
        subst h'; exact List.mem_cons_self _ _
      · simp only [lookupRow, if_neg he] at h
        exact List.mem_cons_of_mem _ (ih h)

/-- A cell holding a string value (possibly empty). -/
def isStrCell : Cell → Bool
  | Cell.str _ => true
  | _ => false

theorem isStrCell_exists {c : Cell} (h : isStrCell c = true) : ∃ v, c = Cell.str v := by
  cases c <;> simp [isStrCell] at h ⊢

theorem lookupRow_isSome_of_mem_keys {tbl : Table} {t : String}
    (h : t ∈ tbl.map Prod.fst) : ∃ r, lookupRow tbl t = some r := by
  induction tbl with
  | nil => simp at h
  | cons p rest ih =>
      obtain ⟨t0, r0⟩ := p
      by_cases he : t0 = t
      · subst he; exact ⟨r0, by simp [lookupRow]⟩
      · simp only [List.map_cons, List.mem_cons] at h
        rcases h with h | h
        · exact absurd h.symm he
        · obtain ⟨r, hr⟩ := ih h
          exact ⟨r, by simp [lookupRow, he, hr]⟩

/-! ## C1: round-trip of the vocabulary-table merge -/

/-- Claim C1. For a fitted extractor, build the fresh table, let the analyst
    set `NE`/`alias` (string values, some possibly empty) on its rows,
    persist, and rebuild from the same extractor with the persisted table as
    `init`: every analyst-set `NE`/`alias` value comes back unchanged —
    empty stays empty — and neither field of the rebuilt row is ever NaN. -/
theorem C1_roundtrip (names : List String) (tot : List ℚ) (maxF : Nat) (T2 : Table)
    (hkeys : T2.map Prod.fst = (generate_vocabulary_df names tot maxF none).map Prod.fst)
    (hstr : ∀ p ∈ T2, isStrCell p.2.NE ∧ isStrCell p.2.alias_) :
    ∀ t r2, lookupRow T2 t = some r2 →
      ∃ r3, lookupRow (generate_vocabulary_df names tot maxF (some (persistTable T2))) t
          = some r3 ∧
        r3.NE = r2.NE ∧ r3.alias_ = r2.alias_ ∧ r3.NE ≠ Cell.nan ∧ r3.alias_ ≠ Cell.nan := by
  intro t r2 h2
  have htmem : t ∈ (generate_vocabulary_df names tot maxF none).map Prod.fst := by
    rw [← hkeys]
    exact List.mem_map_of_mem Prod.fst (lookupRow_mem h2)
  obtain ⟨rf, hrf⟩ := lookupRow_isSome_of_mem_keys htmem
  have hrf' : lookupRow (freshVocabularyDf names tot maxF) t = some rf := hrf
  -- the merge path is three row-transforming maps over the fresh dataframe
  have hgen : generate_vocabulary_df names tot maxF (some (persistTable T2))
      = (((freshVocabularyDf names tot maxF).map
            (fun p => (p.1, { p.2 with NE := Cell.nan, alias_ := Cell.nan, notes := Cell.nan }))).map
          (fun p => (p.1, updateRow p.2 (lookupRow (persistTable T2) p.1)))).map
        (fun p => (p.1, fillnaRow p.2)) := rfl
  have hres : lookupRow
      (generate_vocabulary_df names tot maxF (some (persistTable T2))) t
      = some (fillnaRow (updateRow
          { rf with NE := Cell.nan, alias_ := Cell.nan, notes := Cell.nan }
          (lookupRow (persistTable T2) t))) := by
    rw [hgen,
        lookupRow_map (fun _ r => fillnaRow r),
        lookupRow_map (fun s r => updateRow r (lookupRow (persistTable T2) s)),
        lookupRow_map (fun _ r => { r with NE := Cell.nan, alias_ := Cell.nan, notes := Cell.nan }),
        hrf']
    rfl
  have himp : lookupRow (persistTable T2) t = some (persistRow r2) := by
    have hp : persistTable T2 = T2.map (fun p => (p.1, persistRow p.2)) := rfl
    rw [hp, lookupRow_map (fun _ r => persistRow r), h2]
    rfl
  rw [himp] at hres
  obtain ⟨hN, hA⟩ := hstr (t, r2) (lookupRow_mem h2)
  obtain ⟨vN, hvN⟩ := isStrCell_exists hN
  obtain ⟨vA, hvA⟩ := isStrCell_exists hA
  refine ⟨_, hres, ?_, ?_, ?_, ?_⟩
  · show fillCell (updCell Cell.nan (persistCell r2.NE)) = r2.NE
    rw [hvN]
    by_cases hv : vN = ""
    · subst hv; rfl
    · simp [persistCell, updCell, fillCell, hv]
  · show fillCell (updCell Cell.nan (persistCell r2.alias_)) = r2.alias_
    rw [hvA]
    by_cases hv : vA = ""
    · subst hv; rfl
    · simp [persistCell, updCell, fillCell, hv]
  · show fillCell (updCell Cell.nan (persistCell r2.NE)) ≠ Cell.nan
    rw [hvN]
    by_cases hv : vN = ""
    · subst hv; decide
    · simp [persistCell, updCell, fillCell, hv]
  · show fillCell (updCell Cell.nan (persistCell r2.alias_)) ≠ Cell.nan
    rw [hvA]
    by_cases hv : vA = ""
    · subst hv; decide
    · simp [persistCell, updCell, fillCell, hv]

/-- The table obtained from a fresh two-token build after the analyst sets
    `NE`/`alias` on the `"leak"` row and leaves `"pump"` unclassified. -/
def c1Edited : Table :=
  [("leak", ⟨Cell.str "P", Cell.str "leak", Cell.str "", Cell.num 1⟩),
   ("pump", ⟨Cell.str "", Cell.str "", Cell.str "", Cell.num 0⟩)]

/-- Witness for C1 at the concrete two-token extractor. -/
theorem C1_roundtrip_witness :
    ∃ r3, lookupRow (generate_vocabulary_df ["pump", "leak"] [1, 2] 5000
        (some (persistTable c1Edited))) "leak" = some r3 ∧
      r3.NE = Cell.str "P" ∧ r3.alias_ = Cell.str "leak" ∧
      r3.NE ≠ Cell.nan ∧ r3.alias_ ≠ Cell.nan := by
  have h := C1_roundtrip ["pump", "leak"] [1, 2] 5000 c1Edited (by decide)
    (by decide) "leak" ⟨Cell.str "P", Cell.str "leak", Cell.str "", Cell.num 1⟩ (by decide)
  exact h

/-! ## C2: merged scores are carried over from the existing table (code bug)

The docstring of `generate_vocabulary_df` says `init` is used "to read and
update token classification values from", and the spec states that scores
are always recomputed from the current fit; but `df.update(df_import)`
overwrites *all* shared columns, including `score`. -/

/-- An existing table whose `"aa"` score (1/2) differs from the fresh
    normalized score (1). -/
def c2Init : Table :=
  [("aa", ⟨Cell.str "P", Cell.str "x", Cell.str "", Cell.num (1/2)⟩)]

/-- Claim C2, code bug. Rebuilding with an existing table carries the
    existing table's score into the merged result: the fresh normalized
    score of `"aa"` is `(3-1)/(3-1) = 1`, yet the merged row keeps the
    imported 1/2 — `df.update` overwrites the `score` column too. -/
theorem C2_score_carried_over :
    lookupRow (generate_vocabulary_df ["aa", "bb"] [3, 1] 5000 (some c2Init)) "aa"
      = some ⟨Cell.str "P", Cell.str "x", Cell.str "", Cell.num (1/2)⟩ ∧
    lookupRow (generate_vocabulary_df ["aa", "bb"] [3, 1] 5000 none) "aa"
      = some ⟨Cell.str "", Cell.str "", Cell.str "", Cell.num ((3 - 1) / (3 - 1))⟩ ∧
    ((3 : ℚ) - 1) / ((3 : ℚ) - 1) = 1 ∧ (1/2 : ℚ) ≠ 1 := by
  refine ⟨rfl, rfl, by norm_num, by norm_num⟩

/-! ## C6: degenerate score normalization divides by zero (code bug)

`scores_` is `(scores - scores.min()) / (scores.max() - scores.min())` with
no guard: when all summed scores are equal every entry is the float `0.0/0.0`,
i.e. NaN, not the 1.0 the spec prescribes. -/

/-- Claim C6, code bug. For a fitted extractor whose ranked tokens all have
    equal summed scores (here `[2, 2]`), every normalized score is NaN
    (the float `0.0/0.0`), not the defined fallback 1.0. -/
theorem C6_degenerate_scores_nan :
    scoresOf [2, 2] 5000 = [Cell.nan, Cell.nan] ∧ Cell.nan ≠ Cell.num 1 := by
  decide

/-! ## `ngram_automatch`

`ngram_automatch(voc1, voc2)` copies `voc1`, blanks empty NE to NaN on the
copy, builds a token/alias → NE dict, substitutes it over `voc2.index` to get
compound signatures, and writes — only on the rows of `voc2` whose alias is
blank/NaN — first the signature and then `NE_map.get(signature, "")`.
Python dicts are embedded as insertion-ordered association lists with
last-value-wins insertion (`upsert`/`toDict`). -/

/-- Python dict assignment `d[k] = v`: update the existing key in place
    (keeping its insertion position) or append. -/
def upsert (l : List (String × String)) (k v : String) : List (String × String) :=
  match l with
  | [] => [(k, v)]
  | (k0, v0) :: rest => if k0 = k then (k0, v) :: rest else (k0, v0) :: upsert rest k v

/-- Embeds `Series.to_dict()`: build a dict from pairs in order (later values win). -/
def toDict (l : List (String × String)) : List (String × String) :=
  l.foldl (fun acc p => upsert acc p.1 p.2) []

/-- Embeds `dict.get(k, dflt)`. -/
def dictGetD (d : List (String × String)) (k dflt : String) : String :=
  match d with
  | [] => dflt
  | (k0, v) :: rest => if k0 = k then v else dictGetD rest k dflt

/-- Embeds `Series.replace("", np.nan)` on one cell. -/
def blankToNan : Cell → Cell
  | Cell.str v => if v = "" then Cell.nan else Cell.str v
  | c => c

/-- Embeds `fillna(dflt)` followed by reading the cell as the string it holds. -/
def cellStrD (dflt : String) : Cell → String
  | Cell.nan => dflt
  | Cell.str v => v
  | Cell.num q => toString q

/-- Embeds `df.drop_duplicates()` on (NE, alias) pairs: keep first occurrences. -/
def dedupPairs (seen : List (String × String)) :
    List (String × String) → List (String × String)
  | [] => []
  | p :: rest =>
      if seen.contains p then dedupPairs seen rest
      else p :: dedupPairs (p :: seen) rest

/-- The `NE_dict` of `ngram_automatch`: token → NE (blank NE as "NA"),
    updated with alias → NE from the deduplicated (NE, alias) pairs, with
    the empty-string key popped. -/
def neDictOf (voc1 : Table) : List (String × String) :=
  let vocab := voc1.map (fun p => (p.1, { p.2 with NE := blankToNan p.2.NE }))
  let d0 := toDict (vocab.map (fun p => (p.1, cellStrD "NA" p.2.NE)))
  let pairs := vocab.map (fun p => (cellStrD "NA" p.2.NE, cellStrD "NA" p.2.alias_))
  let aliasD := toDict ((dedupPairs [] pairs).map (fun q => (q.2, q.1)))
  let d1 := aliasD.foldl (fun acc p => upsert acc p.1 p.2) d0
  d1.filter (fun p => !(p.1 == ""))

/-- The mask `voc2.alias.replace("", np.nan).isna()`: blank or missing alias. -/
def aliasBlank : Cell → Bool
  | Cell.nan => true
  | Cell.str v => v == ""
  | Cell.num _ => false

/-- Embeds `ngram_automatch(voc1, voc2)` as explicit state passing: the first
    component is the (never-written) `voc1`, the second the updated `voc2`.
    The entity-rules map `nestorParams.entity_rules_map` is configuration
    supplied from outside the module and is passed as `neMap`. -/
def ngram_automatch (neMap : List (String × String)) (voc1 voc2 : Table) :
    Table × Table :=
  let d := neDictOf voc1
  let step1 := voc2.map (fun p =>
    if aliasBlank p.2.alias_ then
      (p.1, { p.2 with NE := Cell.str (regexThesaurusNormalizer d p.1) })
    else p)
  let step2 := step1.map (fun p =>
    if aliasBlank p.2.alias_ then
      (p.1, { p.2 with NE := Cell.str (dictGetD neMap (cellStrD "" p.2.NE) "") })
    else p)
  (voc1, step2)

/-! ## Frame lemmas for `ngram_automatch` -/

theorem map_fst_preserved {f : (String × VocabRow) → (String × VocabRow)}
    (hf : ∀ p, (f p).1 = p.1) : ∀ l : Table, (l.map f).map Prod.fst = l.map Prod.fst := by
  intro l
  induction l with
  | nil => rfl
  | cons p rest ih => simp [hf, ih]

theorem map_id_of_fix {f : (String × VocabRow) → (String × VocabRow)} :
    ∀ {l : Table}, (∀ p ∈ l, f p = p) → l.map f = l := by
  intro l
  induction l with
  | nil => intro _; rfl
  | cons p rest ih =>
      intro h
      simp only [List.map_cons, h p (List.mem_cons_self p rest)]
      rw [ih (fun q hq => h q (List.mem_cons_of_mem p hq))]

theorem zip_map_self (h : (String × VocabRow) → (String × VocabRow)) :
    ∀ l : Table, (l.map h).zip l = l.map (fun p => (h p, p)) := by
  intro l
  induction l with
  | nil => rfl
  | cons p rest ih => simp [ih]

/-- Claim C9. The function `ngram_automatch` never modifies its atomic table argument
    `voc1` (it reads a copy), and the composite table it returns is the
    updated `voc2` itself (same rows, same keys, updated in place). -/
theorem C9_voc1_never_mutated :
    ∀ (neMap : List (String × String)) (voc1 voc2 : Table),
      (ngram_automatch neMap voc1 voc2).1 = voc1 ∧
      ((ngram_automatch neMap voc1 voc2).2).map Prod.fst = voc2.map Prod.fst := by
  intro neMap voc1 voc2
  refine ⟨rfl, ?_⟩
  show (((voc2.map _).map _).map Prod.fst) = voc2.map Prod.fst
  rw [map_fst_preserved (f := fun p =>
        if aliasBlank p.2.alias_ then
          (p.1, { p.2 with NE := Cell.str (dictGetD neMap (cellStrD "" p.2.NE) "") })
        else p)
      (by intro p; by_cases h : aliasBlank p.2.alias_ <;> simp [h]),
      map_fst_preserved (f := fun p =>
        if aliasBlank p.2.alias_ then
          (p.1, { p.2 with NE := Cell.str (regexThesaurusNormalizer (neDictOf voc1) p.1) })
        else p)
      (by intro p; by_cases h : aliasBlank p.2.alias_ <;> simp [h])]

/-- Claim C8. Rows already settled by the analyst (non-blank alias) pass
    through `ngram_automatch` completely unchanged; on a composite table
    all of whose rows have non-blank aliases the function is the identity,
    and hence running it twice equals running it once. -/
theorem C8_settled_rows_untouched :
    (∀ (neMap : List (String × String)) (voc1 voc2 : Table),
        ∀ pr ∈ ((ngram_automatch neMap voc1 voc2).2).zip voc2,
          aliasBlank pr.2.2.alias_ = false → pr.1 = pr.2)
    ∧ (∀ (neMap : List (String × String)) (voc1 voc2 : Table),
        (∀ p ∈ voc2, aliasBlank p.2.alias_ = false) →
        (ngram_automatch neMap voc1 voc2).2 = voc2 ∧
        (ngram_automatch neMap voc1 (ngram_automatch neMap voc1 voc2).2).2
          = (ngram_automatch neMap voc1 voc2).2) := by
  constructor
  · intro neMap voc1 voc2 pr hpr hmask
    have hzip : ((ngram_automatch neMap voc1 voc2).2).zip voc2
        = voc2.map (fun p =>
            ((fun q =>
              if aliasBlank q.2.alias_ then
                (q.1, { q.2 with NE := Cell.str (dictGetD neMap (cellStrD "" q.2.NE) "") })
              else q)
            ((fun q =>
              if aliasBlank q.2.alias_ then
                (q.1, { q.2 with NE := Cell.str (regexThesaurusNormalizer (neDictOf voc1) q.1) })
              else q) p), p)) := by
      show ((voc2.map _).map _).zip voc2 = _
      rw [List.map_map]
      exact zip_map_self _ voc2
    rw [hzip] at hpr
    obtain ⟨p, hp, rfl⟩ := List.mem_map.mp hpr
    have hm : aliasBlank p.2.alias_ = false := hmask
    simp [hm]
  · intro neMap voc1 voc2 hall
    have hinner : voc2.map (fun p =>
        if aliasBlank p.2.alias_ then
          (p.1, { p.2 with NE := Cell.str (regexThesaurusNormalizer (neDictOf voc1) p.1) })
        else p) = voc2 :=
      map_id_of_fix (fun p hp => by simp [hall p hp])
    have h1 : (ngram_automatch neMap voc1 voc2).2 = voc2 := by
      show ((voc2.map _).map _) = voc2
      rw [hinner]
      exact map_id_of_fix (fun p hp => by simp [hall p hp])
    refine ⟨h1, ?_⟩
    rw [h1]
    exact h1

/-- The atomic table for the C4/C8 concrete scenarios. -/
def c4Voc1 : Table :=
  [("pump", ⟨Cell.str "I", Cell.str "", Cell.str "", Cell.num 1⟩)]

/-- A composite table with one unclassified bigram row. -/
def c4Voc2 : Table :=
  [("pump seal", ⟨Cell.str "", Cell.str "", Cell.str "", Cell.num 1⟩)]

/-- Witness for C8: on a composite table whose single row has a non-blank
    alias, `ngram_automatch` is the identity and is idempotent. -/
theorem C8_settled_rows_untouched_witness :
    (ngram_automatch [] c4Voc1
        [("pump seal", ⟨Cell.str "P I", Cell.str "pump_seal", Cell.str "", Cell.num 1⟩)]).2
      = [("pump seal", ⟨Cell.str "P I", Cell.str "pump_seal", Cell.str "", Cell.num 1⟩)] := by
  have h := (C8_settled_rows_untouched.2 [] c4Voc1
    [("pump seal", ⟨Cell.str "P I", Cell.str "pump_seal", Cell.str "", Cell.num 1⟩)]
    (by decide)).1
  exact h

/-- Claim C4, counterexample. With an empty rule map, the single masked row of
    `c4Voc2` gets compound signature `"I seal"` — absent from the map — yet
    its `entity_type` ends up as the *empty string*, not the raw compound
    signature the claim promises. -/
theorem C4_counterexample :
    (ngram_automatch [] c4Voc1 c4Voc2).2
      = [("pump seal", ⟨Cell.str "", Cell.str "", Cell.str "", Cell.num 1⟩)] ∧
    regexThesaurusNormalizer (neDictOf c4Voc1) "pump seal" = "I seal" ∧
    Cell.str "" ≠ Cell.str "I seal" := by
  decide

/-- Claim C4, amended. For every composite-table row without an
    analyst-assigned alias, `ngram_automatch` sets that row's entity type to
    `rule_map.get(signature, "")` for its compound signature: the rule's
    result when the signature is mapped, and the *empty string* (treated as
    unclassified) — not the raw compound signature — when it is absent. -/
theorem C4_unmapped_signature_blank :
    (∀ (neMap : List (String × String)) (voc1 voc2 : Table),
        ∀ pr ∈ ((ngram_automatch neMap voc1 voc2).2).zip voc2,
          aliasBlank pr.2.2.alias_ = true →
          pr.1.2.NE = Cell.str (dictGetD neMap
            (regexThesaurusNormalizer (neDictOf voc1) pr.2.1) ""))
    ∧ (∀ (d : List (String × String)) (k : String),
        k ∉ d.map Prod.fst → dictGetD d k "" = "") := by
  constructor
  · intro neMap voc1 voc2 pr hpr hmask
    have hzip : ((ngram_automatch neMap voc1 voc2).2).zip voc2
        = voc2.map (fun p =>
            ((fun q =>
              if aliasBlank q.2.alias_ then
                (q.1, { q.2 with NE := Cell.str (dictGetD neMap (cellStrD "" q.2.NE) "") })
              else q)
            ((fun q =>
              if aliasBlank q.2.alias_ then
                (q.1, { q.2 with NE := Cell.str (regexThesaurusNormalizer (neDictOf voc1) q.1) })
              else q) p), p)) := by
      show ((voc2.map _).map _).zip voc2 = _
      rw [List.map_map]
      exact zip_map_self _ voc2
    rw [hzip] at hpr
    obtain ⟨p, hp, rfl⟩ := List.mem_map.mp hpr
    have hm : aliasBlank p.2.alias_ = true := hmask
    simp [hm, cellStrD]
  · intro d k hk
    induction d with
    | nil => rfl
    | cons p rest ih =>
        obtain ⟨k0, v0⟩ := p
        have hne : k0 ≠ k := by
          intro he
          exact hk (by simp [he])
        simp only [dictGetD, if_neg hne]
        exact ih (fun hmem => hk (List.mem_cons_of_mem _ hmem))

/-- Witness for the amended C4 at the concrete scenario: the masked row's
    entity type equals the rule-map lookup of its signature with default "". -/
theorem C4_unmapped_signature_blank_witness :
    ((("pump seal", (⟨Cell.str "", Cell.str "", Cell.str "", Cell.num 1⟩ : VocabRow)),
      ("pump seal", (⟨Cell.str "", Cell.str "", Cell.str "", Cell.num 1⟩ : VocabRow))).1.2.NE
      = Cell.str (dictGetD []
          (regexThesaurusNormalizer (neDictOf c4Voc1) "pump seal") "")) :=
  C4_unmapped_signature_blank.1 [] c4Voc1 c4Voc2 _ (by decide) (by decide)

/-! ## `tag_extractor`: the transformer state

`tag_extractor(transformer, raw_text, ...)` begins with

```
try:    check_is_fitted(...); toks = transformer.transform(raw_text)
except NotFittedError: toks = transformer.fit_transform(raw_text)
```

`transform` recomputes and stores `self._tf_tot = X_tf.sum(axis=0)` from its
argument, so the extractor's totals are overwritten on *every* call.  The
rest of `tag_extractor` only reads the transformer.  The sklearn vectorizer
itself is an external dependency; it is modelled from the spec (§4.2) as a
bag-of-words counter over lowercased runs of ≥ 2 word characters — the
claims proved here depend only on *which* documents the stored totals come
from, not on the numeric weighting. -/

/-- Maximal word-character runs of the text (accumulator holds the current
    run reversed). -/
def wordRunsAux (cur : List Char) : List Char → List (List Char)
  | [] => if cur.isEmpty then [] else [cur.reverse]
  | c :: cs =>
      if isWordChar c then wordRunsAux (c :: cur) cs
      else if cur.isEmpty then wordRunsAux [] cs
      else cur.reverse :: wordRunsAux [] cs

/-- Modelled from the spec: the external vectorizer's tokenization
    (lowercase, default token pattern = runs of at least two word
    characters). -/
def sklearnTokens (doc : String) : List String :=
  ((wordRunsAux [] (lowerData doc.data)).filter (fun r => 2 ≤ r.length)).map String.mk

/-- Modelled from the spec: the summed per-feature score over the documents
    (`np.array(X_tf.sum(axis=0))[0]`), with term counts standing in for the
    external TF-IDF weighting. -/
def transformTotals (names : List String) (docs : List String) : List ℚ :=
  names.map (fun w => ((docs.map (fun d => (sklearnTokens d).count w)).sum : ℕ))

/-- Modelled from the spec: the fitted vocabulary (sorted distinct tokens of
    the fit corpus, as `get_feature_names` returns them sorted). -/
def dedupStr (seen : List String) : List String → List String
  | [] => []
  | s :: rest => if seen.contains s then dedupStr seen rest else s :: dedupStr (s :: seen) rest

def insStr (x : String) : List String → List String
  | [] => [x]
  | y :: ys => if x < y then x :: y :: ys else y :: insStr x ys

def sortStr : List String → List String
  | [] => []
  | x :: xs => insStr x (sortStr xs)

def fitFeatureNames (docs : List String) : List String :=
  sortStr (dedupStr [] ((docs.map sklearnTokens).flatten))

/-- Embeds `TokenExtractor.fit_transform` state change: fit the model on the
    documents and store their summed scores. -/
def fit_transform_state (tex : TokenExtractor) (docs : List String) : TokenExtractor :=
  let names := fitFeatureNames docs
  { model := some names, tfTot := some (transformTotals names docs),
    maxFeatures := tex.maxFeatures }

/-- Embeds `TokenExtractor.transform` state change: keep the fitted model, but
    overwrite `_tf_tot` with the summed scores of the *argument* documents. -/
def transform_state (tex : TokenExtractor) (docs : List String) : TokenExtractor :=
  match tex.model with
  | some names => { tex with tfTot := some (transformTotals names docs) }
  | none => tex

/-- The transformer state after `tag_extractor(transformer, raw_text, ...)`:
    `transform` when fitted, `fit_transform` when not. -/
def tag_extractor_state (tex : TokenExtractor) (raw : List String) : TokenExtractor :=
  match tex.model with
  | some _ => transform_state tex raw
  | none => fit_transform_state tex raw

/-- Claim C10. The function `tag_extractor` has a side effect on its transformer for every
    call: an unfitted extractor is fitted in place on `raw_text`; a fitted
    one keeps its model but has its stored summed totals `_tf_tot`
    overwritten with totals computed from `raw_text` — whatever totals were
    stored before, the post-call ranked scores reflect `raw_text` only. -/
theorem C10_tag_extractor_overwrites_totals :
    (∀ (names : List String) (tot : Option (List ℚ)) (maxF : Nat) (raw : List String),
        tag_extractor_state ⟨some names, tot, maxF⟩ raw
          = ⟨some names, some (transformTotals names raw), maxF⟩)
    ∧ (∀ (tot : Option (List ℚ)) (maxF : Nat) (raw : List String),
        tag_extractor_state ⟨none, tot, maxF⟩ raw
          = ⟨some (fitFeatureNames raw),
              some (transformTotals (fitFeatureNames raw) raw), maxF⟩)
    ∧ (∀ (names : List String) (tot1 tot2 : Option (List ℚ)) (maxF : Nat)
          (raw : List String),
        scoresOf ((tag_extractor_state ⟨some names, tot1, maxF⟩ raw).tfTot.getD [])
            maxF
          = scoresOf ((tag_extractor_state ⟨some names, tot2, maxF⟩ raw).tfTot.getD [])
            maxF) :=
  ⟨fun _ _ _ _ => rfl, fun _ _ _ => rfl, fun _ _ _ _ _ => rfl⟩

/-! ## `iob_extractor`

The pipeline: merge the vocabulary tables; build the alias and NE dicts;
compile the tokenize-mode matcher over the alias-dict keys; lowercase and
`findall` each document; explode to one row per matched span (`token_id` is
the positional index after `reset_index`, `doc_id` the originating row);
resolve each span's NE by thesaurus substitution with unknown values mapped
to `"U"`; split each span on `[_\s]` and explode to one row per word;
initialize `iob="I"`, mark the first row of each `token_id` group `"B"`,
mask rows whose NE is in the configured `holes` set to `"O"`; finally emit
`(token, strip("-", iob + "-" + NE), doc_id)` with the NE blanked on `"O"`
rows.  The `holes` set and the generic tokenizer pattern are configuration
supplied from outside the module and appear as parameters. -/

structure TidyRow where
  token_id : Nat
  doc_id : Nat
  word : List Char
  NE : String
  iob : String
deriving DecidableEq, Repr

/-- Embeds `vocab_df.NE.fillna("U").to_dict()`. -/
def iobVocabDf (voc1 : Table) (vocN : Option Table) : Table :=
  match vocN with
  | some v => voc1 ++ v
  | none => voc1

def iobNeThes (voc1 : Table) (vocN : Option Table) : List (String × String) :=
  toDict ((iobVocabDf voc1 vocN).map (fun p => (p.1, cellStrD "U" p.2.NE)))

/-- The keys of `vocab_df.alias.to_dict()` — the tokens — compiled into the
    tokenize-mode matcher. -/
def iobKeys (voc1 : Table) (vocN : Option Table) : List (List Char) :=
  regexMatchVocab ((toDict ((iobVocabDf voc1 vocN).map
    (fun p => (p.1, cellStrD "" p.2.alias_)))).map Prod.fst)

/-- NE resolution of one matched span: thesaurus-substitute, then replace
    any value that is not among the thesaurus values by `"U"`. -/
def resolveNE (neThes : List (String × String)) (txt : List Char) : String :=
  let s1 := regexThesaurusNormalizer neThes (String.mk txt)
  if (neThes.map Prod.snd).contains s1 then s1 else "U"

/-- Whitespace `\s` or the underscore of nestor's compound tokens. -/
def isSepChar (c : Char) : Bool := c == '_' || c.isWhitespace

/-- Embeds `re.split("[_\s]", ...)`: split at every separator, keeping empties. -/
def splitSeps : List Char → List (List Char)
  | [] => [[]]
  | c :: rest =>
      match splitSeps rest with
      | [] => [[]]
      | w :: ws => if isSepChar c then [] :: w :: ws else (c :: w) :: ws

/-- The `findall` of the tokenize-mode matcher over one lowercased document. -/
def docSpans (keys : List (List Char))
    (tokPat : Option Char → List Char → Option (List Char × List Char))
    (doc : String) : List (List Char) :=
  findAllF keys tokPat doc.data.length none (lowerData doc.data)

/-- The exploded spans: one `(doc_id, matched span)` row per match, in
    document order. -/
def spanRowsOf (tokPat : Option Char → List Char → Option (List Char × List Char))
    (raw : List String) (keys : List (List Char)) : List (Nat × List Char) :=
  (raw.enum).flatMap (fun p => (docSpans keys tokPat p.2).map (fun m => (p.1, m)))

/-- The second explode: one row per word of each span; `n` is the running
    `token_id` (the positional index of the span row). -/
def tidyFrom (neThes : List (String × String)) :
    Nat → List (Nat × List Char) → List TidyRow
  | _, [] => []
  | n, (d, txt) :: rest =>
      ((splitSeps txt).map (fun w => ⟨n, d, w, resolveNE neThes txt, "I"⟩))
        ++ tidyFrom neThes (n + 1) rest

/-- Embeds `beginning_token`: the rows selected by `groupby("token_id").nth(0)` are
    the first row of each `token_id` value; walking with the already-seen
    prefix, a row is set to `"B"` iff no earlier row shares its `token_id`. -/
def btAux (pre : List TidyRow) : List TidyRow → List TidyRow
  | [] => []
  | r :: rest =>
      (if pre.all (fun r0 => r0.token_id != r.token_id) then { r with iob := "B" } else r)
        :: btAux (pre ++ [r]) rest

/-- Embeds `outside_token`: mask `iob` to `"O"` where the NE is a hole. -/
def outRow (holes : List String) (r : TidyRow) : TidyRow :=
  if holes.contains r.NE then { r with iob := "O" } else r

def outsideToken (holes : List String) (rows : List TidyRow) : List TidyRow :=
  rows.map (outRow holes)

/-- Embeds `str.strip("-")`: drop hyphens from both ends. -/
def stripDash (s : String) : String :=
  String.mk (((s.data.dropWhile (fun c => c == '-')).reverse.dropWhile
    (fun c => c == '-')).reverse)

/-- The final `iob` frame row: NE is blanked where `iob == "O"`, then the
    label is `strip("-", iob + "-" + NE)`. -/
def finRow (r : TidyRow) : String × String × Nat :=
  (String.mk r.word,
   stripDash (r.iob ++ "-" ++ (if r.iob == "O" then "" else r.NE)),
   r.doc_id)

def finalizeRows (rows : List TidyRow) : List (String × String × Nat) :=
  rows.map finRow

/-- Embeds `iob_extractor(raw_text, vocab_df_1grams, vocab_df_ngrams)`, returning
    the `(token, NE-label, doc_id)` rows. -/
def iob_extractor (tokPat : Option Char → List Char → Option (List Char × List Char))
    (holes : List String) (raw : List String) (voc1 : Table) (vocN : Option Table) :
    List (String × String × Nat) :=
  let spans := spanRowsOf tokPat raw (iobKeys voc1 vocN)
  finalizeRows (outsideToken holes (btAux [] (tidyFrom (iobNeThes voc1 vocN) 0 spans)))

/-- Modelled from the spec: nestor's generic tokenizer pattern (configurable;
    a `\b\w\w+\b`-style fallback): at a position opening a word boundary,
    match the maximal run of word characters when it has length ≥ 2. -/
def defaultTokPat (prev : Option Char) (cs : List Char) : Option (List Char × List Char) :=
  match cs with
  | [] => none
  | c :: _ =>
      if optWord prev then none
      else if isWordChar c then
        let run := cs.takeWhile isWordChar
        if 2 ≤ run.length then some (run, cs.drop run.length) else none
      else none

/-- An entity-type string with a usable tail: nonempty, not ending in a
    hyphen (so `str.strip("-")` leaves the IOB label intact). -/
def neTailOK (t : String) : Bool :=
  match t.data.getLast? with
  | some c => c != '-'
  | none => false

/-- The specification-side labelling of one matched span: the first
    constituent token is tagged `B-<type>`, subsequent tokens `I-<type>`,
    and every token of a span whose resolved type is a hole is tagged plain
    `"O"` with no type attached. -/
def iobSpanSpec (holes : List String) (neThes : List (String × String))
    (d : Nat) (txt : List Char) : List (String × String × Nat) :=
  let t := resolveNE neThes txt
  match splitSeps txt with
  | [] => []
  | w :: ws =>
      (String.mk w, if holes.contains t then "O" else "B-" ++ t, d)
        :: ws.map (fun w0 => (String.mk w0, if holes.contains t then "O" else "I-" ++ t, d))

/-! ## Lemmas for the IOB pipeline -/

theorem splitSeps_ne_nil : ∀ cs : List Char, splitSeps cs ≠ [] := by
  intro cs
  induction cs with
  | nil => simp [splitSeps]
  | cons c rest ih =>
      simp only [splitSeps]
      cases h : splitSeps rest with
      | nil => simp
      | cons w ws =>
          by_cases hs : isSepChar c <;> simp [hs]

theorem btAux_append : ∀ (A pre B : List TidyRow),
    btAux pre (A ++ B) = btAux pre A ++ btAux (pre ++ A) B := by
  intro A
  induction A with
  | nil => intro pre B; simp [btAux]
  | cons r rest ih =>
      intro pre B
      simp only [List.cons_append, btAux, List.append_eq]
      rw [ih (pre ++ [r]) B, List.append_assoc, List.singleton_append]

theorem tidyFrom_tid_ge (neThes : List (String × String)) :
    ∀ (spans : List (Nat × List Char)) (n : Nat) (r : TidyRow),
    r ∈ tidyFrom neThes n spans → n ≤ r.token_id := by
  intro spans
  induction spans with
  | nil => intro n r h; simp [tidyFrom] at h
  | cons p rest ih =>
      intro n r h
      obtain ⟨d, txt⟩ := p
      rcases List.mem_append.mp h with h | h
      · obtain ⟨w, _, rfl⟩ := List.mem_map.mp h
        exact Nat.le_refl n
      · exact Nat.le_of_succ_le (ih (n + 1) r h)

theorem btAux_seen (n d : Nat) (ne : String) :
    ∀ (ws : List (List Char)) (pre : List TidyRow),
    (∃ r ∈ pre, r.token_id = n) →
    btAux pre (ws.map (fun w0 => (⟨n, d, w0, ne, "I"⟩ : TidyRow)))
      = ws.map (fun w0 => (⟨n, d, w0, ne, "I"⟩ : TidyRow)) := by
  intro ws
  induction ws with
  | nil => intro pre _; rfl
  | cons w ws ih =>
      intro pre hex
      simp only [List.map_cons, btAux]
      have hall : pre.all (fun r0 => r0.token_id != n) = false := by
        obtain ⟨r, hr, hrn⟩ := hex
        apply List.all_eq_false.mpr
        exact ⟨r, hr, by simp [hrn]⟩
      rw [if_neg (by simp [hall])]
      congr 1
      apply ih
      obtain ⟨r, hr, hrn⟩ := hex
      exact ⟨r, List.mem_append_left _ hr, hrn⟩

theorem btAux_block (n d : Nat) (ne : String) (pre : List TidyRow)
    (hpre : ∀ r ∈ pre, r.token_id ≠ n) (w : List Char) (ws : List (List Char)) :
    btAux pre ((w :: ws).map (fun w0 => (⟨n, d, w0, ne, "I"⟩ : TidyRow)))
      = (⟨n, d, w, ne, "B"⟩ : TidyRow) :: ws.map (fun w0 => (⟨n, d, w0, ne, "I"⟩ : TidyRow)) := by
  simp only [List.map_cons, btAux]
  have hall : pre.all (fun r0 => r0.token_id != n) = true := by
    apply List.all_eq_true.mpr
    intro r hr
    simp [hpre r hr]
  rw [if_pos (by simpa using hall)]
  congr 1
  apply btAux_seen
  exact ⟨⟨n, d, w, ne, "I"⟩, List.mem_append_right _ (List.mem_singleton.mpr rfl), rfl⟩

theorem outsideToken_append (holes : List String) (A B : List TidyRow) :
    outsideToken holes (A ++ B) = outsideToken holes A ++ outsideToken holes B := by
  simp [outsideToken]

theorem finalizeRows_append (A B : List TidyRow) :
    finalizeRows (A ++ B) = finalizeRows A ++ finalizeRows B := by
  simp [finalizeRows]

theorem stripDash_id {l : List Char} {c0 c1 : Char}
    (h0 : l.head? = some c0) (hc0 : (c0 == '-') = false)
    (h1 : l.getLast? = some c1) (hc1 : (c1 == '-') = false) :
    stripDash (String.mk l) = String.mk l := by
  unfold stripDash
  have hdw : l.dropWhile (fun c => c == '-') = l := by
    cases l with
    | nil => rfl
    | cons a as =>
        have ha : a = c0 := by injection h0
        subst ha
        simp [List.dropWhile_cons, hc0]
  rw [show (String.mk l).data = l from rfl, hdw]
  have hrev : l.reverse.dropWhile (fun c => c == '-') = l.reverse := by
    cases hr : l.reverse with
    | nil => rfl
    | cons a as =>
        have hh : l.reverse.head? = some a := by rw [hr]; rfl
        rw [List.head?_reverse] at hh
        have ha : a = c1 := by rw [hh] at h1; injection h1
        subst ha
        simp [List.dropWhile_cons, hc1]
  rw [hrev, List.reverse_reverse]

theorem neTailOK_last {t : String} (ht : neTailOK t) :
    ∃ c, t.data.getLast? = some c ∧ (c == '-') = false := by
  unfold neTailOK at ht
  cases h : t.data.getLast? with
  | none => rw [h] at ht; exact absurd ht (by simp)
  | some c =>
      rw [h] at ht
      exact ⟨c, rfl, by simpa [bne] using ht⟩

theorem stripDash_B {t : String} (ht : neTailOK t) :
    stripDash ("B-" ++ t) = "B-" ++ t := by
  obtain ⟨c, hlast, hc⟩ := neTailOK_last ht
  have hBt : ("B-" ++ t : String) = String.mk ('B' :: '-' :: t.data) := rfl
  rw [hBt, @stripDash_id ('B' :: '-' :: t.data) 'B' c rfl (by decide) ?_ hc]
  show (['B', '-'] ++ t.data).getLast? = some c
  rw [List.getLast?_append, hlast]
  rfl

theorem stripDash_I {t : String} (ht : neTailOK t) :
    stripDash ("I-" ++ t) = "I-" ++ t := by
  obtain ⟨c, hlast, hc⟩ := neTailOK_last ht
  have hIt : ("I-" ++ t : String) = String.mk ('I' :: '-' :: t.data) := rfl
  rw [hIt, @stripDash_id ('I' :: '-' :: t.data) 'I' c rfl (by decide) ?_ hc]
  show (['I', '-'] ++ t.data).getLast? = some c
  rw [List.getLast?_append, hlast]
  rfl

theorem stripDash_O : stripDash "O-" = "O" := by decide

/-- The heart of C7: over any span list, the full explode/mark/mask/label
    pipeline produces exactly the per-span B/I/O labelling. -/
theorem pipeline_spans (neThes : List (String × String)) (holes : List String) :
    ∀ (spans : List (Nat × List Char)) (n : Nat) (pre : List TidyRow),
    (∀ r ∈ pre, r.token_id < n) →
    (∀ p ∈ spans, resolveNE neThes p.2 ∉ holes →
        neTailOK (resolveNE neThes p.2)) →
    finalizeRows (outsideToken holes (btAux pre (tidyFrom neThes n spans)))
      = spans.flatMap (fun p => iobSpanSpec holes neThes p.1 p.2) := by
  intro spans
  induction spans with
  | nil => intro n pre _ _; rfl
  | cons p rest ih =>
      intro n pre hpre hH
      obtain ⟨d, txt⟩ := p
      have hblock : tidyFrom neThes n ((d, txt) :: rest)
          = ((splitSeps txt).map
              (fun w => (⟨n, d, w, resolveNE neThes txt, "I"⟩ : TidyRow)))
            ++ tidyFrom neThes (n + 1) rest := rfl
      rw [hblock, btAux_append, outsideToken_append, finalizeRows_append,
        List.flatMap_cons]
      have hpre' : ∀ r ∈ pre ++ (splitSeps txt).map
          (fun w => (⟨n, d, w, resolveNE neThes txt, "I"⟩ : TidyRow)),
          r.token_id < n + 1 := by
        intro r hr
        rcases List.mem_append.mp hr with h | h
        · exact Nat.lt_succ_of_lt (hpre r h)
        · obtain ⟨w, _, rfl⟩ := List.mem_map.mp h
          exact Nat.lt_succ_self n
      rw [ih (n + 1) _ hpre'
        (fun p hp hc => hH p (List.mem_cons_of_mem _ hp) hc)]
      congr 1
      -- the head block
      cases hsp : splitSeps txt with
      | nil => exact absurd hsp (splitSeps_ne_nil txt)
      | cons w ws =>
          rw [btAux_block n d (resolveNE neThes txt) pre
            (fun r hr => Nat.ne_of_lt (hpre r hr)) w ws]
          by_cases hc : resolveNE neThes txt ∈ holes
          · simp [iobSpanSpec, hsp, hc, outsideToken, finalizeRows, outRow, finRow,
              stripDash_O, List.map_map, Function.comp]
          · have ht := hH (d, txt) (List.mem_cons_self _ _) hc
            simp [iobSpanSpec, hsp, hc, outsideToken, finalizeRows, outRow, finRow,
              stripDash_B ht, stripDash_I ht, List.map_map, Function.comp]

/-- Claim C7. For every document, provided the vocabulary's entity types are
    usable label components (nonempty, no trailing hyphen — satisfied by all
    of nestor's types), the IOB output labels each matched span as: first
    constituent token `B-<type>`, subsequent tokens of a multi-token span
    `I-<type>`, and every token whose resolved type lies in the configured
    `holes` set (Stopword "X" / Unknown "U" by default) plain `"O"`
    regardless of position, its NE component blanked before the `O` is
    emitted. -/
theorem C7_iob_labels
    (tokPat : Option Char → List Char → Option (List Char × List Char))
    (holes : List String) (raw : List String) (voc1 : Table) (vocN : Option Table)
    (H : ∀ p ∈ spanRowsOf tokPat raw (iobKeys voc1 vocN),
        resolveNE (iobNeThes voc1 vocN) p.2 ∉ holes →
        neTailOK (resolveNE (iobNeThes voc1 vocN) p.2)) :
    iob_extractor tokPat holes raw voc1 vocN
      = (spanRowsOf tokPat raw (iobKeys voc1 vocN)).flatMap
          (fun p => iobSpanSpec holes (iobNeThes voc1 vocN) p.1 p.2) :=
  pipeline_spans (iobNeThes voc1 vocN) holes
    (spanRowsOf tokPat raw (iobKeys voc1 vocN)) 0 []
    (fun r hr => absurd hr (List.not_mem_nil r)) H

/-- The vocabulary of the repository's own test scenario
    (`tests/test_keyword.py`). -/
def foxVocab : Table :=
  [("fox", ⟨Cell.str "I", Cell.str "fox", Cell.str "", Cell.num 6⟩),
   ("brown fox", ⟨Cell.str "I", Cell.str "brown_animal", Cell.str "", Cell.num 5⟩),
   ("quick brown fox", ⟨Cell.str "I", Cell.str "fast_animal", Cell.str "", Cell.num 4⟩),
   ("jumped", ⟨Cell.str "V", Cell.str "jump", Cell.str "", Cell.num 3⟩),
   ("dog", ⟨Cell.str "I", Cell.str "dog", Cell.str "", Cell.num 2⟩),
   ("lazy dog", ⟨Cell.str "I", Cell.str "slow_animal", Cell.str "", Cell.num 1⟩),
   ("the", ⟨Cell.str "X", Cell.str "", Cell.str "", Cell.num 0⟩),
   ("over", ⟨Cell.str "U", Cell.str "", Cell.str "", Cell.num 0⟩)]

/-- Witness for C7 on the repository's test document: the 3-token span
    `"quick brown fox"` gets `B-I I-I I-I`, `"jumped"` gets `B-V`, and the
    holes `"the"` (X) and `"over"` (U) get `"O"`. -/
theorem C7_iob_labels_witness :
    iob_extractor defaultTokPat ["X", "U"]
        ["the quick brown fox jumped over the lazy dog"] foxVocab none
      = [("the", "O", 0), ("quick", "B-I", 0), ("brown", "I-I", 0), ("fox", "I-I", 0),
         ("jumped", "B-V", 0), ("over", "O", 0), ("the", "O", 0),
         ("lazy", "B-I", 0), ("dog", "I-I", 0)] := by
  rw [C7_iob_labels defaultTokPat ["X", "U"]
    ["the quick brown fox jumped over the lazy dog"] foxVocab none (by decide)]
  decide

end Nestor
